import Mathlib

/-!
# Verification of the batch source-rewriting scripts

Shallow embedding of the four Python scripts
(`final-build-fixes.py`, `final-typescript-fixes.py`, `fix-regex.py`,
`fix_final_const_errors.py`) over `List Char` text, together with proofs
about the transformation pipeline they implement: per-rule global literal
replacement, the line-oriented `} else {` structural repair, the
switch-case declaration wrapping, the conditional write-back discipline
and the guard/skip behaviour.
-/

set_option maxRecDepth 200000

/-- Text is modelled as a list of characters; Python `str` values are
byte-for-byte sequences of characters here. -/
abbrev Str := List Char

/-- Conversion from a Lean string literal to the character-list model. -/
def SL (s : String) : Str := s.toList

/-- `isPre p s` is Python-style prefix testing: `s.startswith(p)`. -/
def isPre : Str → Str → Bool
  | [], _ => true
  | _ :: _, [] => false
  | p :: ps, c :: cs => p == c && isPre ps cs

/-- `containsSub s pat` is Python's substring test `pat in s`. -/
def containsSub : Str → Str → Bool
  | [], pat => isPre pat []
  | s@(_ :: cs), pat => isPre pat s || containsSub cs pat

/-- Scanner for global literal replacement. The first `Nat` argument is the
number of characters still to be skipped because they belong to the match
just replaced (non-overlapping semantics: skipped characters are not
re-tested). At skip `0`, a prefix match emits the replacement and skips the
rest of the matched pattern. -/
def pyRepGo (pat repl : Str) : Nat → Str → Str
  | _, [] => []
  | n + 1, _ :: cs => pyRepGo pat repl n cs
  | 0, c :: cs =>
    if isPre pat (c :: cs) then repl ++ pyRepGo pat repl (pat.length - 1) cs
    else c :: pyRepGo pat repl 0 cs

/-- Global left-to-right non-overlapping literal replacement: the behaviour
of Python's `str.replace(pat, repl)` and of `re.sub(pat, repl, s)` when
`pat` is a nonempty literal pattern (all patterns the scripts feed to these
operations are nonempty; for an empty pattern this model returns the text
unchanged, which agrees with `re.sub("", "", s)`). -/
def pyReplace (pat repl : Str) (s : Str) : Str :=
  match pat with
  | [] => s
  | _ :: _ => pyRepGo pat repl 0 s

/-- Python whitespace characters, as stripped by `str.strip()`. -/
def isWSc (c : Char) : Bool :=
  c == ' ' || c == '\t' || c == '\n' || c == '\r' || c == '\x0b' || c == '\x0c'

/-- Drop leading whitespace (`str.lstrip()`). -/
def stripL (s : Str) : Str := s.dropWhile isWSc

/-- Python `str.strip()`: drop leading and trailing whitespace. -/
def strip (s : Str) : Str := (stripL (stripL s).reverse).reverse

/-- Python `line.endswith((';', '\x7d', '\x7b'))`. -/
def endsTerm (s : Str) : Bool :=
  match s.reverse with
  | [] => false
  | c :: _ => c == ';' || c == '\x7d' || c == '\x7b'

/-- Prepend a character to the first part of a split. -/
def consHead (c : Char) : List Str → List Str
  | [] => [[c]]
  | l :: ls => (c :: l) :: ls

/-- Python `content.split(sep)` for a one-character separator. -/
def splitOnChar (sep : Char) : Str → List Str
  | [] => [[]]
  | c :: cs =>
    if c == sep then [] :: splitOnChar sep cs
    else consHead c (splitOnChar sep cs)

/-- Python `sep.join(parts)` for a one-character separator. -/
def joinChar (sep : Char) : List Str → Str
  | [] => []
  | [l] => l
  | l :: ls => l ++ sep :: joinChar sep ls

/-- Pattern scanned for backward in `final-build-fixes.py`: `'if ('`. -/
def ifPat : Str := SL "if ("

/-- Marker for the malformed else line: `'} else {'`. -/
def elsePat : Str := SL "\x7d else \x7b"

/-- First synthesized branch body line of the reconstructed if/else block. -/
def flowDecl1 : Str := SL "        const nodes = await this.getTemplateNodes(templateId);"

/-- Synthesized `} else {` line of the reconstructed block. -/
def flowElse : Str := SL "      \x7d else \x7b"

/-- Second synthesized branch body line of the reconstructed block. -/
def flowDecl2 : Str := SL "        const nodes = await this.getTenantFlowNodes(undefined, 1000);"

/-- Synthesized closing line of the reconstructed block. -/
def flowClose : Str := SL "      \x7d"

/-- The five replacement lines spliced in by `final-build-fixes.py`
(lines 68-74): the stripped if-condition line followed by the synthesized
two-branch body. -/
def fixedSection (ifLine : Str) : List Str :=
  [strip ifLine, flowDecl1, flowElse, flowDecl2, flowClose]

/-- Check on the stripped previous line (`final-build-fixes.py`
lines 53-57): nonempty, does not end in `;`/`}`/`{`, and mentions
`const nodes` or `nodes =`. -/
def prevOK (prev : Str) : Bool :=
  !prev.isEmpty && !endsTerm prev &&
    (containsSub prev (SL "const nodes") || containsSub prev (SL "nodes ="))

/-- Fire condition of the structural repair at index `i` for line `l`
(`final-build-fixes.py` lines 51-57): the line contains `} else {`, is not
the first line, and the stripped previous line passes `prevOK`. -/
def elseCond (lines : List Str) (i : Nat) (l : Str) : Bool :=
  containsSub l elsePat && decide (0 < i) && prevOK (strip (lines.getD (i - 1) []))

/-- Backward scan for the nearest line containing `if (` at or below
index `j` (`final-build-fixes.py` lines 59-61); `none` means the scan ran
off the start of the file without finding one. -/
def backScan (lines : List Str) : Nat → Option Nat
  | 0 => if containsSub (lines.getD 0 []) ifPat then some 0 else none
  | j + 1 =>
    if containsSub (lines.getD (j + 1) []) ifPat then some (j + 1)
    else backScan lines j

/-- Outcome of the backward scan at a fire site (`final-build-fixes.py`
lines 59-79): if an `if (` line was found at index `j`, splice in
`fixedSection` and continue with `skip` (the loop resumed two lines
later); otherwise the current line `l` passes through and the loop
continues with `cont` (resumed at the next line). -/
def fireCont (lines : List Str) (i : Nat) (l : Str) (cont skip : List Str) : List Str :=
  match backScan lines (i - 1) with
  | some j => fixedSection (lines.getD j []) ++ skip
  | none => l :: cont

/-- The line loop of `final-build-fixes.py` (lines 46-82). `i` is the index
of the first line of the remaining list within `lines` (the entry point
passes `0` and the whole list). On a fire the loop splices `fixedSection`
over the current and next line and resumes two lines later; if the
backward scan fails, or the fire condition does not hold, the current line
passes through unchanged. -/
def flowGoAux (lines : List Str) : Nat → List Str → List Str
  | _, [] => []
  | i, [l] =>
    if elseCond lines i l then fireCont lines i l [] [] else [l]
  | i, l :: l2 :: rest =>
    if elseCond lines i l then
      fireCont lines i l (flowGoAux lines (i + 1) (l2 :: rest)) (flowGoAux lines (i + 2) rest)
    else l :: flowGoAux lines (i + 1) (l2 :: rest)

/-- The full repair pass over the line list. -/
def flowFix (lines : List Str) : List Str := flowGoAux lines 0 lines

/-- Whole-text transformation of `src/lib/api/flow-nodes.ts` performed by
`final-build-fixes.py`: split on newlines, run the repair loop, join. -/
def flowFixContent (c : Str) : Str := joinChar '\n' (flowFix (splitOnChar '\n' c))

/-- The change flag for the flow-nodes file (`final-build-fixes.py`
line 86): exact string comparison of the joined result with the input. -/
def flowChanged (c : Str) : Bool := flowFixContent c != c

/-- The file-system state seen by the scripts: per-path contents plus the
ordered log of paths written (one entry per `open(path, 'w')`/`write`). -/
structure FSt where
  contents : String → Option Str
  writes : List String

/-- Whole-file write-back: `open(path, 'w'); f.write(v)`. -/
def fswrite (fs : FSt) (p : String) (v : Str) : FSt :=
  ⟨fun q => if q = p then some v else fs.contents q, fs.writes ++ [p]⟩

/-- The rule loop of `fix_file` (`final-typescript-fixes.py` lines 16-17):
each `(pattern, replacement)` pair is applied by `re.sub` to the output of
the previous one. -/
def applyPatterns (pats : List (Str × Str)) (content : Str) : Str :=
  pats.foldl (fun acc pr => pyReplace pr.1 pr.2 acc) content

/-- `fix_file` (`final-typescript-fixes.py` lines 6-25): missing file means
return `False` untouched; otherwise apply the patterns and write back only
when the result differs from the original, reporting whether it did. -/
def fix_file (fs : FSt) (path : String) (pats : List (Str × Str)) : FSt × Bool :=
  match fs.contents path with
  | none => (fs, false)
  | some content =>
    let c2 := applyPatterns pats content
    if c2 != content then (fswrite fs path c2, true) else (fs, false)

/-- The `fixes` loop of `final-typescript-fixes.py` `main` (lines 127-130):
run `fix_file` on each configured entry in order, counting the files
reported fixed. -/
def runFixes (fs : FSt) : List (String × List (Str × Str)) → FSt × Nat
  | [] => (fs, 0)
  | (p, pats) :: rest =>
    let r := fix_file fs p pats
    let r2 := runFixes r.1 rest
    (r2.1, (if r.2 then 1 else 0) + r2.2)

/-- Path of the first file `fix-regex.py` rewrites (resolution of the
`os.path.join` against the project root is abstracted to the relative
path). -/
def routerPath : String := "lambda/api/router.ts"

/-- Path of the second file `fix-regex.py` rewrites. -/
def tenantPath : String := "lambda/api/middleware/tenant.ts"

/-- The two sequential replacements applied to `router.ts`
(`fix-regex.py` lines 15-16). -/
def routerTransform (c : Str) : Str :=
  pyReplace (SL "[^\\/]") (SL "[^/]") (pyReplace (SL "[^\\/]+") (SL "[^/]+") c)

/-- The whole `fix-regex.py` module body: `router.ts` is opened without an
existence check (a missing file raises `FileNotFoundError`, modelled as
`Except.error`), transformed and written back unconditionally; `tenant.ts`
is guarded by `os.path.exists` and also written back unconditionally when
present. -/
def fixRegexRun (fs : FSt) : Except Unit FSt :=
  match fs.contents routerPath with
  | none => Except.error ()
  | some c =>
    let fs1 := fswrite fs routerPath (routerTransform c)
    match fs1.contents tenantPath with
    | none => Except.ok fs1
    | some t => Except.ok (fswrite fs1 tenantPath (pyReplace (SL "\\/") (SL "/") t))

/-- Boolean test for the error outcome of a `fix-regex.py` run. -/
def isErrRun (e : Except Unit FSt) : Bool :=
  match e with
  | Except.error _ => true
  | Except.ok _ => false

/-- Write log of a `fix-regex.py` run (empty when the run aborted). -/
def writesOf (e : Except Unit FSt) : List String :=
  match e with
  | Except.ok fs => fs.writes
  | Except.error _ => []

/-- Contents of path `p` after a `fix-regex.py` run (`none` when the run
aborted). -/
def contentsAt (p : String) (e : Except Unit FSt) : Option Str :=
  match e with
  | Except.ok fs => fs.contents p
  | Except.error _ => none

/-- Guard of the manual `lab.ts`/`flow-nodes.ts` fallback in
`fix_final_const_errors.py` (lines 58, 73): the file uses
`expressionAttributeValues[` but has no `const expressionAttributeValues:`
declaration. -/
def labGuard (content : Str) : Bool :=
  containsSub content (SL "expressionAttributeValues[") &&
    !containsSub content (SL "const expressionAttributeValues:")

/-- Python `content.find(pat)`: index of the first occurrence. -/
def findSub : Str → Str → Option Nat
  | [], pat => if isPre pat [] then some 0 else none
  | c :: cs, pat =>
    if isPre pat (c :: cs) then some 0
    else (findSub cs pat).map (· + 1)

/-- Declaration line inserted by the fallback of
`fix_final_const_errors.py` (lines 63-65). -/
def eavInsert : Str := SL "\n    const expressionAttributeValues: Record<string, any> = \x7b\x7d;\n"

/-- The fallback path of `fix_final_const_errors.py` (lines 56-69): when
the guard holds and the scan-comment marker is found, insert the missing
declaration at `len('\n'.join(content[:pos].split('\n')))`; otherwise the
content is left untouched. -/
def labFallback (content : Str) : Str :=
  if labGuard content then
    match findSub content (SL "// Default to scan with filters") with
    | some pos =>
      List.take (joinChar '\n' (splitOnChar '\n' (List.take pos content))).length content
        ++ eavInsert ++
        List.drop (joinChar '\n' (splitOnChar '\n' (List.take pos content))).length content
    | none => content
  else content

/-- A concrete one-file file system used by witnesses. -/
def fsA : FSt := ⟨fun q => if q = "a.ts" then some (SL "abc") else none, []⟩

/-- A file system holding an unchanged `router.ts`, used by the C2
counterexample. -/
def fsRouterOnly : FSt := ⟨fun q => if q = routerPath then some (SL "abc") else none, []⟩

/-- A file system with a pending `tenant.ts` fix but no `router.ts`, used
by the C6 counterexample. -/
def fsTenantOnly : FSt :=
  ⟨fun q => if q = tenantPath then some (SL "a\\/b") else none, []⟩

/-- The empty file system, used by the C6 witness. -/
def fsEmpty : FSt := ⟨fun _ => none, []⟩

/-- Every character of the text is Python whitespace. -/
abbrev AllWS (a : Str) : Prop := ∀ c ∈ a, isWSc c = true

/-- No character of the text is Python whitespace. -/
abbrev NoWS (p : Str) : Prop := ∀ c ∈ p, isWSc c = false

/-- `'switch' in line and '\x7b' in line`
(`final-typescript-fixes.py` line 159). -/
def swOpen (l : Str) : Bool :=
  containsSub l (SL "switch") && containsSub l (SL "\x7b")

/-- `'\x7d' in line and 'case' not in line`
(`final-typescript-fixes.py` line 161); tested while inside a switch. -/
def swClose (l : Str) : Bool :=
  containsSub l (SL "\x7d") && !containsSub l (SL "case")

/-- `line.strip().startswith('case') and ':' in line`
(`final-typescript-fixes.py` line 163). -/
def isCaseLine (l : Str) : Bool :=
  isPre (SL "case") (strip l) && containsSub l (SL ":")

/-- `next_line.startswith(('const ', 'let ', 'var '))`
(`final-typescript-fixes.py` line 167), applied to the stripped next
line. -/
def isDecl (t : Str) : Bool :=
  isPre (SL "const ") t || isPre (SL "let ") t || isPre (SL "var ") t

/-- The replacement text `'        \x7b'`
(`final-typescript-fixes.py` line 169). -/
def braceLit : Str := SL "        \x7b"

/-- The eight spaces used to re-indent the declaration
(`final-typescript-fixes.py` line 170). -/
def sp8 : Str := SL "        "

/-- The switch-scanning loop of `final-typescript-fixes.py`
(lines 155-173), threading the `in_switch` flag. On a fire (a case line
inside a switch whose next line starts with a declaration keyword) it
emits the case line, `lines[i+1].replace(next_line, '        \x7b')` and
`'        ' + next_line`, then continues — without consuming the
declaration line, which the next iteration emits again. A final line is
always emitted verbatim (the fire branch needs a following line). -/
def caseFix : Bool → List Str → List Str
  | _, [] => []
  | _, [l] => [l]
  | insw, l :: nx :: rest =>
    if swOpen l then l :: caseFix true (nx :: rest)
    else if insw && swClose l then l :: caseFix false (nx :: rest)
    else if insw && isCaseLine l && isDecl (strip nx) then
      l :: pyReplace (strip nx) braceLit nx :: (sp8 ++ strip nx) ::
        caseFix insw (nx :: rest)
    else l :: caseFix insw (nx :: rest)

/-- Whole-text transformation of `lambda/observatory-api/handler.ts`
performed by `final-typescript-fixes.py`: split on newlines, run the
switch-case wrapping loop with `in_switch = false`, join. -/
def caseFixContent (c : Str) : Str :=
  joinChar '\n' (caseFix false (splitOnChar '\n' c))

theorem pyRepGo_skip (pat repl : Str) :
    ∀ (n : Nat) (s : Str), pyRepGo pat repl n s = pyRepGo pat repl 0 (List.drop n s)
  | 0, s => by rw [List.drop_zero]
  | n + 1, [] => rfl
  | n + 1, c :: cs => by
    rw [List.drop_succ_cons, pyRepGo, pyRepGo_skip pat repl n cs]

/-- The defining step of `pyReplace` for a nonempty pattern: at each
position, either the pattern matches and the replacement is emitted with
the scan resuming after the whole match, or the character is copied. -/
theorem pyReplace_cons (p : Char) (ps repl : Str) (c : Char) (cs : Str) :
    pyReplace (p :: ps) repl (c :: cs) =
      if isPre (p :: ps) (c :: cs) then
        repl ++ pyReplace (p :: ps) repl (List.drop (p :: ps).length (c :: cs))
      else
        c :: pyReplace (p :: ps) repl cs := by
  show pyRepGo (p :: ps) repl 0 (c :: cs) = _
  rw [pyRepGo]
  by_cases h : isPre (p :: ps) (c :: cs) = true
  · rw [if_pos h, if_pos h, pyRepGo_skip]
    have hd : List.drop (p :: ps).length (c :: cs) = List.drop ((p :: ps).length - 1) cs := by
      rw [List.length_cons, List.drop_succ_cons, Nat.add_sub_cancel]
    rw [hd]
    rfl
  · rw [if_neg h, if_neg h]
    rfl

theorem pyReplace_nil_pat (repl s : Str) : pyReplace [] repl s = s := rfl

theorem pyReplace_nil (pat repl : Str) : pyReplace pat repl [] = [] := by
  cases pat with
  | nil => rfl
  | cons p ps => rfl

theorem isPre_iff (p s : Str) : isPre p s = true ↔ ∃ t, s = p ++ t := by
  induction p generalizing s with
  | nil => simp [isPre]
  | cons x ps ih =>
    cases s with
    | nil =>
      simp only [isPre, List.cons_append]
      constructor
      · intro h; exact absurd h (by simp)
      · rintro ⟨t, ht⟩; cases ht
    | cons c cs =>
      simp only [isPre, Bool.and_eq_true, beq_iff_eq, ih, List.cons_append]
      constructor
      · rintro ⟨rfl, t, rfl⟩; exact ⟨t, rfl⟩
      · rintro ⟨t, ht⟩
        injection ht with h1 h2
        exact ⟨h1.symm, t, h2⟩

theorem isPre_self_append (p t : Str) : isPre p (p ++ t) = true :=
  (isPre_iff p (p ++ t)).mpr ⟨t, rfl⟩

theorem isPre_append_of_isPre (p s t : Str) (h : isPre p s = true) :
    isPre p (s ++ t) = true := by
  obtain ⟨u, rfl⟩ := (isPre_iff p s).mp h
  rw [List.append_assoc]
  exact isPre_self_append p (u ++ t)

theorem append_drop_of_isPre (p s : Str) (h : isPre p s = true) :
    p ++ List.drop p.length s = s := by
  obtain ⟨t, rfl⟩ := (isPre_iff p s).mp h
  rw [List.drop_left]

theorem containsSub_iff (s pat : Str) :
    containsSub s pat = true ↔ ∃ a b, s = a ++ pat ++ b := by
  induction s with
  | nil =>
    simp only [containsSub, isPre_iff]
    constructor
    · rintro ⟨t, ht⟩
      exact ⟨[], t, by simpa using ht⟩
    · rintro ⟨a, b, h⟩
      have h' : a ++ (pat ++ b) = [] := by rw [← List.append_assoc]; exact h.symm
      rcases List.append_eq_nil.mp h' with ⟨rfl, h2⟩
      rcases List.append_eq_nil.mp h2 with ⟨rfl, rfl⟩
      exact ⟨[], rfl⟩
  | cons c cs ih =>
    simp only [containsSub, Bool.or_eq_true, ih, isPre_iff]
    constructor
    · rintro (⟨t, ht⟩ | ⟨a, b, rfl⟩)
      · exact ⟨[], t, by simpa using ht⟩
      · exact ⟨c :: a, b, by simp⟩
    · rintro ⟨a, b, h⟩
      cases a with
      | nil => exact Or.inl ⟨b, by simpa using h⟩
      | cons a0 as =>
        right
        injection h with h1 h2
        exact ⟨as, b, h2⟩

theorem containsSub_of_isPre (s pat : Str) (h : isPre pat s = true) :
    containsSub s pat = true := by
  obtain ⟨t, rfl⟩ := (isPre_iff pat s).mp h
  exact (containsSub_iff _ _).mpr ⟨[], t, by simp⟩

theorem containsSub_append_left (a s pat : Str) (h : containsSub s pat = true) :
    containsSub (a ++ s) pat = true := by
  obtain ⟨x, y, rfl⟩ := (containsSub_iff s pat).mp h
  exact (containsSub_iff _ _).mpr ⟨a ++ x, y, by simp⟩

theorem containsSub_append_right (s b pat : Str) (h : containsSub s pat = true) :
    containsSub (s ++ b) pat = true := by
  obtain ⟨x, y, rfl⟩ := (containsSub_iff s pat).mp h
  exact (containsSub_iff _ _).mpr ⟨x, y ++ b, by simp⟩

/-- Replacing a literal pattern by itself is the identity: the replacement
splices the pattern back exactly where it was found. -/
theorem pyReplace_self : ∀ pat s : Str, pyReplace pat pat s = s
  | [], _ => rfl
  | _ :: _, [] => pyReplace_nil _ _
  | p :: ps, c :: cs => by
    rw [pyReplace_cons]
    by_cases h : isPre (p :: ps) (c :: cs) = true
    · rw [if_pos h, pyReplace_self (p :: ps) (List.drop (p :: ps).length (c :: cs))]
      exact append_drop_of_isPre _ _ h
    · rw [if_neg h, pyReplace_self (p :: ps) cs]
termination_by _ s => s.length
decreasing_by
  · simp only [List.length_drop, List.length_cons]
    omega
  · simp only [List.length_cons]
    omega

theorem containsSub_nil_ifPat : containsSub [] ifPat = false := rfl

theorem getD_mem_or_default (lines : List Str) (j : Nat) :
    lines.getD j [] ∈ lines ∨ lines.getD j ([] : Str) = [] := by
  by_cases h : j < lines.length
  · left
    rw [List.getD_eq_get? , List.get?_eq_get h]
    exact List.get_mem lines j h
  · right
    rw [List.getD_eq_get?, List.get?_eq_none.mpr (Nat.le_of_not_lt h)]
    rfl

theorem backScan_none_of_no_if (lines : List Str)
    (h : ∀ l ∈ lines, containsSub l ifPat = false) :
    ∀ j, backScan lines j = none := by
  intro j
  induction j with
  | zero =>
    rw [backScan]
    rcases getD_mem_or_default lines 0 with hm | he
    · rw [h _ hm]
      rfl
    · rw [he, containsSub_nil_ifPat]
      rfl
  | succ j ih =>
    rw [backScan]
    rcases getD_mem_or_default lines (j + 1) with hm | he
    · rw [h _ hm]
      simpa using ih
    · rw [he, containsSub_nil_ifPat]
      simpa using ih

theorem flowGoAux_id_of_backScan_none (lines : List Str)
    (hb : ∀ j, backScan lines j = none) :
    ∀ (i : Nat) (rest : List Str), flowGoAux lines i rest = rest := by
  intro i rest
  induction rest generalizing i with
  | nil => rfl
  | cons l rest ih =>
    cases rest with
    | nil =>
      simp only [flowGoAux]
      by_cases h : elseCond lines i l = true
      · rw [if_pos h]
        unfold fireCont
        rw [hb (i - 1)]
      · rw [if_neg h]
    | cons l2 rest2 =>
      simp only [flowGoAux]
      by_cases h : elseCond lines i l = true
      · rw [if_pos h]
        unfold fireCont
        rw [hb (i - 1), ih]
      · rw [if_neg h, ih]

/-- C1 counterexample: the pipeline is not idempotent. On the three-line
input `if (a) { } else {` / `const nodes = x` / `} else {`, the first run
of the `final-build-fixes.py` flow-nodes transformation splices in a block
whose first line (the backward-scanned if-condition) itself contains
`} else {`, so a second run fires again and produces a different, longer
text. -/
theorem pipeline_not_idempotent_cex :
    flowFixContent (flowFixContent (SL "if (a) \x7b \x7d else \x7b\nconst nodes = x\n\x7d else \x7b")) ≠
      flowFixContent (SL "if (a) \x7b \x7d else \x7b\nconst nodes = x\n\x7d else \x7b") := by decide

/-- C4: when a structural rule's backward scan for an enclosing `if (`
line reaches the start of input without finding one, the affected lines
are emitted unchanged and no partial splice is produced: on any line list
in which no line contains `if (`, every backward scan fails and the whole
repair pass is the identity. -/
theorem structural_unresolved_passthrough (lines : List Str)
    (h : ∀ l ∈ lines, containsSub l ifPat = false) : flowFix lines = lines :=
  flowGoAux_id_of_backScan_none lines (backScan_none_of_no_if lines h) 0 lines

/-- Witness for C4 at a concrete input containing a fire candidate
(`} else {` preceded by an unterminated `const nodes` line) but no `if (`
line anywhere. -/
theorem structural_unresolved_passthrough_witness :
    (∀ l ∈ [SL "const nodes = x", SL "\x7d else \x7b"], containsSub l ifPat = false) ∧
      flowFix [SL "const nodes = x", SL "\x7d else \x7b"] =
        [SL "const nodes = x", SL "\x7d else \x7b"] :=
  ⟨by decide, structural_unresolved_passthrough _ (by decide)⟩

/-- C5 counterexample: on the spec's Scenario 3 input `if (x) {` /
`const y = f()` / `} else {`, the code does not fire at all (the previous
line must mention `const nodes` or `nodes =`), the three lines pass
through verbatim, and `changed` is `false` — not `true` as claimed. -/
theorem scenario3_passthrough_cex :
    flowFixContent (SL "if (x) \x7b\nconst y = f()\n\x7d else \x7b") =
        SL "if (x) \x7b\nconst y = f()\n\x7d else \x7b" ∧
      flowChanged (SL "if (x) \x7b\nconst y = f()\n\x7d else \x7b") = false := by decide

/-- C5 amended: with middle line `const nodes = f()` (the code fires only
when the preceding line mentions `const nodes` or `nodes =`), the rule
fires: it replaces the `} else {` line (and the line that would follow)
with the five synthesized lines — a repeat of the if-condition line and a
hard-coded two-branch body — leaving the two original lines above intact,
and `changed` is `true`. -/
theorem scenario3_const_nodes_splice :
    flowFixContent (SL "if (x) \x7b\nconst nodes = f()\n\x7d else \x7b") =
        SL "if (x) \x7b\nconst nodes = f()\nif (x) \x7b\n        const nodes = await this.getTemplateNodes(templateId);\n      \x7d else \x7b\n        const nodes = await this.getTenantFlowNodes(undefined, 1000);\n      \x7d" ∧
      flowChanged (SL "if (x) \x7b\nconst nodes = f()\n\x7d else \x7b") = true := by decide

theorem pyReplace_leftmost (p r a b : Str) (hp : p ≠ [])
    (h : ∀ i, i < a.length → isPre p (List.drop i (a ++ p ++ b)) = false) :
    pyReplace p r (a ++ p ++ b) = a ++ r ++ pyReplace p r b := by
  induction a with
  | nil =>
    cases p with
    | nil => exact absurd rfl hp
    | cons p0 ps =>
      have hstep : (p0 :: ps) ++ b = p0 :: (ps ++ b) := rfl
      have hpos : isPre (p0 :: ps) (p0 :: (ps ++ b)) = true := by
        have := isPre_self_append (p0 :: ps) b
        rwa [hstep] at this
      have hdrop : List.drop (p0 :: ps).length (p0 :: (ps ++ b)) = b := by
        rw [← hstep]
        exact List.drop_left _ _
      rw [List.nil_append, List.nil_append, hstep, pyReplace_cons, if_pos hpos, hdrop]
  | cons a0 as ih =>
    have h0 : isPre p (a0 :: (as ++ p ++ b)) = false := by
      have := h 0 (by simp)
      simpa using this
    have hstep : (a0 :: as) ++ p ++ b = a0 :: (as ++ p ++ b) := by simp
    cases p with
    | nil => exact absurd rfl hp
    | cons p0 ps =>
      rw [hstep, pyReplace_cons, if_neg (by rw [h0]; simp)]
      rw [ih (fun i hi => by
        have := h (i + 1) (by simpa using Nat.succ_lt_succ hi)
        rwa [hstep, List.drop_succ_cons] at this)]
      rfl

/-- C7: rules apply sequentially in listed order, each on the output of
the previous one (`applyPatterns` on a cons is the remaining rules applied
to the first rule's output), and a rule without structural context is a
global replacement of non-overlapping matches, left to right: when no
match starts inside `a`, the leftmost match of `p` in `a ++ p ++ b` is
replaced and the scan continues on `b` only. -/
theorem rules_sequential_global_replace (p r : Str) (ps : List (Str × Str))
    (s a b : Str) (hp : p ≠ [])
    (h : ∀ i, i < a.length → isPre p (List.drop i (a ++ p ++ b)) = false) :
    applyPatterns ((p, r) :: ps) s = applyPatterns ps (pyReplace p r s) ∧
      pyReplace p r (a ++ p ++ b) = a ++ r ++ pyReplace p r b :=
  ⟨rfl, pyReplace_leftmost p r a b hp h⟩

/-- Witness for C7: replacing `ab` by `R` in `xyabzab` rewrites both
occurrences, left to right. -/
theorem rules_sequential_global_replace_witness :
    (SL "ab" ≠ [] ∧
      ∀ i, i < (SL "xy").length →
        isPre (SL "ab") (List.drop i (SL "xy" ++ SL "ab" ++ SL "zab")) = false) ∧
      (applyPatterns [(SL "ab", SL "R")] (SL "q") =
          applyPatterns [] (pyReplace (SL "ab") (SL "R") (SL "q")) ∧
        pyReplace (SL "ab") (SL "R") (SL "xy" ++ SL "ab" ++ SL "zab") =
          SL "xy" ++ SL "R" ++ pyReplace (SL "ab") (SL "R") (SL "zab")) :=
  ⟨⟨by decide, by decide⟩,
    rules_sequential_global_replace (SL "ab") (SL "R") [] (SL "q") (SL "xy") (SL "zab")
      (by decide) (by decide)⟩

/-- C3: for every file processed by `fix_file`, the reported flag is
exact string comparison of the final text against the original, and a rule
replacing a pattern by itself produces byte-identical output, so the file
counts as unchanged and is not written or reported fixed. -/
theorem fix_file_changed_iff_text_differs (fs : FSt) (p : String)
    (pats : List (Str × Str)) (content pat : Str)
    (h : fs.contents p = some content) :
    ((fix_file fs p pats).2 = true ↔ applyPatterns pats content ≠ content) ∧
      pyReplace pat pat content = content ∧
      fix_file fs p [(pat, pat)] = (fs, false) := by
  refine ⟨?_, pyReplace_self pat content, ?_⟩
  · unfold fix_file
    rw [h]
    by_cases hc : applyPatterns pats content = content
    · simp [hc]
    · simp [hc]
  · unfold fix_file
    rw [h]
    have h5 : applyPatterns [(pat, pat)] content = content := pyReplace_self pat content
    simp [h5]

/-- Witness for C3 on a file containing `abc`: a matching rule flips the
flag exactly when the text changes, and the self-replacing rule
`z -> z` leaves the file unwritten and unreported. -/
theorem fix_file_changed_iff_text_differs_witness :
    fsA.contents "a.ts" = some (SL "abc") ∧
      (((fix_file fsA "a.ts" [(SL "b", SL "B")]).2 = true ↔
          applyPatterns [(SL "b", SL "B")] (SL "abc") ≠ SL "abc") ∧
        pyReplace (SL "z") (SL "z") (SL "abc") = SL "abc" ∧
        fix_file fsA "a.ts" [(SL "z", SL "z")] = (fsA, false)) :=
  ⟨by decide,
    fix_file_changed_iff_text_differs fsA "a.ts" [(SL "b", SL "B")] (SL "abc") (SL "z")
      (by decide)⟩

/-- C2 counterexample: `fix-regex.py` writes `router.ts` even when the
transformation leaves its text byte-identical. On contents `abc` the
transformation is the identity, yet the write log records a write to
`router.ts` (the on-disk bytes are nevertheless unchanged). -/
theorem fixRegex_writes_unchanged_file_cex :
    routerTransform (SL "abc") = SL "abc" ∧
      writesOf (fixRegexRun fsRouterOnly) = [routerPath] ∧
      contentsAt routerPath (fixRegexRun fsRouterOnly) = some (SL "abc") := by decide

/-- C2 amended: in `fix_file` a byte-identical transformation produces no
write and leaves the file system untouched; the `fix-regex.py` pass
writes unconditionally, but it writes back exactly the transformed text,
so when the transformation is the identity the on-disk content of
`router.ts` is still byte-identical after the run. -/
theorem fix_file_no_write_when_identical (fs fs2 : FSt) (p : String)
    (pats : List (Str × Str)) (content c : Str)
    (h1 : fs.contents p = some content)
    (h2 : applyPatterns pats content = content)
    (h3 : fs2.contents routerPath = some c)
    (h4 : routerTransform c = c) :
    fix_file fs p pats = (fs, false) ∧
      contentsAt routerPath (fixRegexRun fs2) = some c := by
  constructor
  · unfold fix_file
    rw [h1]
    simp [h2]
  · have hne : routerPath ≠ tenantPath := by decide
    simp only [fixRegexRun, h3, h4]
    cases htt : (fswrite fs2 routerPath c).contents tenantPath with
    | none => simp [contentsAt, fswrite]
    | some t => simp [contentsAt, fswrite, hne]

/-- Witness for C2 (amended) at concrete file systems: a no-op rule list
on `a.ts` and an unchanged `router.ts`. -/
theorem fix_file_no_write_when_identical_witness :
    (fsA.contents "a.ts" = some (SL "abc") ∧
      applyPatterns [(SL "z", SL "y")] (SL "abc") = SL "abc" ∧
      fsRouterOnly.contents routerPath = some (SL "abc") ∧
      routerTransform (SL "abc") = SL "abc") ∧
      (fix_file fsA "a.ts" [(SL "z", SL "y")] = (fsA, false) ∧
        contentsAt routerPath (fixRegexRun fsRouterOnly) = some (SL "abc")) :=
  ⟨⟨by decide, by decide, by decide, by decide⟩,
    fix_file_no_write_when_identical fsA fsRouterOnly "a.ts" [(SL "z", SL "y")]
      (SL "abc") (SL "abc") (by decide) (by decide) (by decide) (by decide)⟩

/-- C6 counterexample: a missing `router.ts` is not recoverable in
`fix-regex.py` — the unguarded `open` raises, the run aborts, and
`tenant.ts` (present, with a pending `\/` fix the script would otherwise
apply) is never processed. -/
theorem fixRegex_missing_router_aborts_cex :
    isErrRun (fixRegexRun fsTenantOnly) = true ∧
      pyReplace (SL "\\/") (SL "/") (SL "a\\/b") ≠ SL "a\\/b" := by decide

/-- C6 amended: in the `fix_file`-based runs a missing path is recoverable
— `fix_file` returns `False` without touching the file system, and the
remaining configured files are processed exactly as in a run where the
missing entry was absent from the configuration. -/
theorem runFixes_missing_skipped (fs : FSt) (p : String)
    (pats : List (Str × Str)) (rest : List (String × List (Str × Str)))
    (h : fs.contents p = none) :
    runFixes fs ((p, pats) :: rest) = runFixes fs rest := by
  have hf : fix_file fs p pats = (fs, false) := by
    unfold fix_file
    rw [h]
  simp [runFixes, hf]

/-- Witness for C6 (amended): one missing configured file is skipped and
the run equals the run without it. -/
theorem runFixes_missing_skipped_witness :
    fsEmpty.contents "missing.ts" = none ∧
      runFixes fsEmpty [("missing.ts", [])] = runFixes fsEmpty [] :=
  ⟨by decide, runFixes_missing_skipped fsEmpty "missing.ts" [] [] (by decide)⟩

/-- C8: if a rule's whole-file guard is false — the target pattern is
absent or the fix is already present — the rule is skipped entirely and
the text is returned unchanged. -/
theorem guard_false_skips_rule (content : Str) (h : labGuard content = false) :
    labFallback content = content := by
  simp [labFallback, h]

/-- Witness for C8 on a file that never mentions
`expressionAttributeValues[`. -/
theorem guard_false_skips_rule_witness :
    labGuard (SL "hello") = false ∧ labFallback (SL "hello") = SL "hello" :=
  ⟨by decide, guard_false_skips_rule (SL "hello") (by decide)⟩

theorem stripL_cons_ws (c : Char) (s : Str) (h : isWSc c = true) :
    stripL (c :: s) = stripL s := by
  simp [stripL, List.dropWhile_cons, h]

theorem stripL_cons_nws (c : Char) (s : Str) (h : isWSc c = false) :
    stripL (c :: s) = c :: s := by
  simp [stripL, List.dropWhile_cons, h]

theorem stripL_append_ws (a s : Str) (h : AllWS a) : stripL (a ++ s) = stripL s := by
  induction a with
  | nil => rfl
  | cons c a' ih =>
    rw [List.cons_append, stripL_cons_ws _ _ (h c (by simp))]
    exact ih fun x hx => h x (by simp [hx])

theorem stripL_eq_nil_of_allWS (s : Str) (h : AllWS s) : stripL s = [] :=
  List.dropWhile_eq_nil_iff.mpr h

theorem stripL_head_nws (s : Str) (c : Char) (t : Str) (h : stripL s = c :: t) :
    isWSc c = false := by
  induction s with
  | nil => cases h
  | cons d ds ih =>
    by_cases hd : isWSc d = true
    · rw [stripL_cons_ws d ds hd] at h
      exact ih h
    · have hd' : isWSc d = false := by
        cases hw : isWSc d
        · rfl
        · exact absurd hw hd
      rw [stripL_cons_nws d ds hd'] at h
      injection h with h1 _
      rw [← h1]
      exact hd'

theorem strip_nil : strip ([] : Str) = [] := rfl

theorem strip_ws_left (a s : Str) (h : AllWS a) : strip (a ++ s) = strip s := by
  unfold strip
  rw [stripL_append_ws a s h]

theorem stripL_append_of_ne_nil (x c : Str) (h : stripL x ≠ []) :
    stripL (x ++ c) = stripL x ++ c := by
  induction x with
  | nil => exact absurd rfl h
  | cons d ds ih =>
    by_cases hd : isWSc d = true
    · have h' : stripL ds ≠ [] := by rwa [stripL_cons_ws d ds hd] at h
      rw [List.cons_append, stripL_cons_ws d _ hd, stripL_cons_ws d ds hd]
      exact ih h'
    · have hd' : isWSc d = false := by
        cases hw : isWSc d
        · rfl
        · exact absurd hw hd
      rw [List.cons_append, stripL_cons_nws d _ hd', stripL_cons_nws d ds hd']
      rfl

theorem strip_ws_right (x c : Str) (h : AllWS c) : strip (x ++ c) = strip x := by
  by_cases hx : stripL x = []
  · have hax : AllWS x := List.dropWhile_eq_nil_iff.mp hx
    have h1 : stripL (x ++ c) = [] := by
      rw [stripL_append_ws x c hax, stripL_eq_nil_of_allWS c h]
    unfold strip
    rw [h1, hx]
  · unfold strip
    rw [stripL_append_of_ne_nil x c hx, List.reverse_append,
      stripL_append_ws c.reverse (stripL x).reverse
        (fun d hd => h d (List.mem_reverse.mp hd))]

theorem strip_frame (a m c : Str) (ha : AllWS a) (hc : AllWS c) :
    strip (a ++ m ++ c) = strip m := by
  rw [List.append_assoc, strip_ws_left a (m ++ c) ha, strip_ws_right m c hc]

theorem strip_decomp (s : Str) :
    ∃ a c, s = a ++ strip s ++ c ∧ AllWS a ∧ AllWS c := by
  have h1 : s = List.takeWhile isWSc s ++ stripL s :=
    (List.takeWhile_append_dropWhile isWSc s).symm
  have ha : AllWS (List.takeWhile isWSc s) := fun c hc => List.mem_takeWhile_imp hc
  set y := stripL s with hy
  have h2 : y.reverse = List.takeWhile isWSc y.reverse ++ stripL y.reverse :=
    (List.takeWhile_append_dropWhile isWSc y.reverse).symm
  have h3 : y = (stripL y.reverse).reverse ++ (List.takeWhile isWSc y.reverse).reverse := by
    have := congrArg List.reverse h2
    rwa [List.reverse_reverse, List.reverse_append] at this
  refine ⟨List.takeWhile isWSc s, (List.takeWhile isWSc y.reverse).reverse, ?_, ha, ?_⟩
  · calc s = List.takeWhile isWSc s ++ y := h1
    _ = List.takeWhile isWSc s ++ ((stripL y.reverse).reverse ++
          (List.takeWhile isWSc y.reverse).reverse) := by rw [← h3]
    _ = List.takeWhile isWSc s ++ strip s ++ (List.takeWhile isWSc y.reverse).reverse := by
          rw [List.append_assoc]
          rfl
  · exact fun d hd => List.mem_takeWhile_imp (List.mem_reverse.mp hd)

theorem strip_head_nws (s : Str) (c : Char) (t : Str) (h : strip s = c :: t) :
    isWSc c = false := by
  have h1 : (strip s).head? = some c := by rw [h]; rfl
  unfold strip at h1
  rw [List.head?_reverse] at h1
  by_cases hz : stripL (stripL s).reverse = []
  · rw [hz] at h1
    cases h1
  · obtain ⟨d, ds, hds⟩ := List.exists_cons_of_ne_nil hz
    have hsfx : stripL (stripL s).reverse <:+ (stripL s).reverse := List.dropWhile_suffix _
    obtain ⟨u, hu⟩ := hsfx
    have hlast : (stripL s).reverse.getLast? = some c := by
      rw [← hu, List.getLast?_append, h1]
      rfl
    rw [List.getLast?_reverse] at hlast
    cases he : stripL s with
    | nil => rw [he] at hlast; cases hlast
    | cons e es =>
      rw [he] at hlast
      have : e = c := by
        have : (e :: es).head? = some c := hlast
        injection this
      rw [← this]
      exact stripL_head_nws s e es he

theorem stripL_headq_nws (z : Str) (d : Char) (h : (stripL z).head? = some d) :
    isWSc d = false := by
  cases he : stripL z with
  | nil => rw [he] at h; cases h
  | cons e es =>
    rw [he] at h
    injection h with h1
    rw [← h1]
    exact stripL_head_nws z e es he

theorem strip_last_nws (s : Str) (d : Char) (h : (strip s).getLast? = some d) :
    isWSc d = false := by
  unfold strip at h
  rw [List.getLast?_reverse] at h
  exact stripL_headq_nws (stripL s).reverse d h

theorem strip_idem (s : Str) : strip (strip s) = strip s := by
  cases h : strip s with
  | nil => exact strip_nil
  | cons c t =>
    have hc : isWSc c = false := strip_head_nws s c t h
    unfold strip
    rw [show stripL (c :: t) = c :: t from stripL_cons_nws c t hc]
    cases hrev : (c :: t).reverse with
    | nil => exact absurd hrev (by simp)
    | cons d u =>
      have h1 : (c :: t).getLast? = some d := by
        rw [← List.head?_reverse, hrev]
        rfl
      have h2 : (strip s).getLast? = some d := by rw [h]; exact h1
      have hd : isWSc d = false := strip_last_nws s d h2
      rw [stripL_cons_nws d u hd, ← hrev, List.reverse_reverse]

theorem beq_false_of_ws_mismatch (p0 c : Char) (h1 : isWSc p0 = false)
    (h2 : isWSc c = true) : (p0 == c) = false := by
  cases hb : p0 == c
  · rfl
  · have he : p0 = c := eq_of_beq hb
    rw [he, h2] at h1
    cases h1

theorem containsSub_ws_left (a s p : Str) (ha : AllWS a) (hp : NoWS p)
    (hne : p ≠ []) : containsSub (a ++ s) p = containsSub s p := by
  induction a with
  | nil => rfl
  | cons c a' ih =>
    rw [List.cons_append]
    have hpre : isPre p (c :: (a' ++ s)) = false := by
      cases p with
      | nil => exact absurd rfl hne
      | cons p0 pt =>
        simp [isPre,
          beq_false_of_ws_mismatch p0 c (hp p0 (by simp)) (ha c (by simp))]
    show (isPre p (c :: (a' ++ s)) || containsSub (a' ++ s) p) = containsSub s p
    rw [hpre, Bool.false_or]
    exact ih fun x hx => ha x (by simp [hx])

theorem isPre_append_ws (p m c : Str) (hp : NoWS p) (hc : AllWS c) :
    isPre p (m ++ c) = isPre p m := by
  induction p generalizing m with
  | nil => rfl
  | cons p0 pt ih =>
    cases m with
    | nil =>
      simp only [List.nil_append]
      cases c with
      | nil => rfl
      | cons c0 cc =>
        simp [isPre,
          beq_false_of_ws_mismatch p0 c0 (hp p0 (by simp)) (hc c0 (by simp))]
    | cons m0 mm =>
      simp only [List.cons_append, isPre, List.append_eq]
      rw [ih mm (fun x hx => hp x (List.mem_cons_of_mem p0 hx))]

theorem containsSub_ws_right (s c p : Str) (hc : AllWS c) (hp : NoWS p)
    (hne : p ≠ []) : containsSub (s ++ c) p = containsSub s p := by
  induction s with
  | nil =>
    simp only [List.nil_append]
    have h1 := containsSub_ws_left c [] p hc hp hne
    rwa [List.append_nil] at h1
  | cons s0 ss ih =>
    have hstep : (s0 :: ss) ++ c = s0 :: (ss ++ c) := rfl
    rw [hstep]
    show (isPre p (s0 :: (ss ++ c)) || containsSub (ss ++ c) p) =
      (isPre p (s0 :: ss) || containsSub ss p)
    rw [show (s0 : Char) :: (ss ++ c) = (s0 :: ss) ++ c from rfl,
      isPre_append_ws p (s0 :: ss) c hp hc, ih]

theorem containsSub_frame (a m c p : Str) (ha : AllWS a) (hc : AllWS c)
    (hp : NoWS p) (hne : p ≠ []) :
    containsSub (a ++ m ++ c) p = containsSub m p := by
  rw [containsSub_ws_right (a ++ m) c p hc hp hne,
    containsSub_ws_left a m p ha hp hne]

theorem containsSub_strip (s p : Str) (hp : NoWS p) (hne : p ≠ []) :
    containsSub (strip s) p = containsSub s p := by
  obtain ⟨a, c, hdec, ha, hc⟩ := strip_decomp s
  have h1 := containsSub_frame a (strip s) c p ha hc hp hne
  rw [← hdec] at h1
  exact h1.symm

theorem pyReplace_allWS (h : Char) (t r c : Str) (hh : isWSc h = false)
    (hc : AllWS c) : pyReplace (h :: t) r c = c := by
  induction c with
  | nil => exact pyReplace_nil _ _
  | cons d ds ih =>
    rw [pyReplace_cons]
    have hpre : isPre (h :: t) (d :: ds) = false := by
      simp [isPre, beq_false_of_ws_mismatch h d hh (hc d (by simp))]
    rw [if_neg (by rw [hpre]; simp)]
    rw [ih fun x hx => hc x (by simp [hx])]

theorem pyReplace_frame (h : Char) (t r a c : Str) (hh : isWSc h = false)
    (ha : AllWS a) (hc : AllWS c) :
    pyReplace (h :: t) r (a ++ (h :: t) ++ c) = a ++ r ++ c := by
  induction a with
  | nil =>
    simp only [List.nil_append]
    have hstep : (h :: t) ++ c = h :: (t ++ c) := rfl
    have hpos : isPre (h :: t) (h :: (t ++ c)) = true := by
      rw [← hstep]
      exact isPre_self_append _ _
    have hdrop : List.drop (h :: t).length (h :: (t ++ c)) = c := by
      rw [← hstep]
      exact List.drop_left _ _
    rw [hstep, pyReplace_cons, if_pos hpos, hdrop, pyReplace_allWS h t r c hh hc]
  | cons a0 as ih =>
    have hpre : isPre (h :: t) (a0 :: (as ++ (h :: t) ++ c)) = false := by
      simp [isPre, beq_false_of_ws_mismatch h a0 hh (ha a0 (by simp))]
    have hstep : (a0 :: as) ++ (h :: t) ++ c = a0 :: (as ++ (h :: t) ++ c) := by simp
    rw [hstep, pyReplace_cons, if_neg (by rw [hpre]; simp),
      ih fun x hx => ha x (by simp [hx])]
    rfl

theorem isDecl_head (m : Str) (h : isDecl m = true) :
    ∃ h0 t0, m = h0 :: t0 ∧ isWSc h0 = false := by
  cases m with
  | nil => exact absurd h (by decide)
  | cons c t =>
    refine ⟨c, t, rfl, ?_⟩
    simp only [isDecl, Bool.or_eq_true] at h
    rcases h with (h | h) | h
    · obtain ⟨u, hu⟩ := (isPre_iff _ _).mp h
      rw [show SL "const " ++ u = 'c' :: (SL "onst " ++ u) from rfl] at hu
      injection hu with h1 _
      rw [h1]
      decide
    · obtain ⟨u, hu⟩ := (isPre_iff _ _).mp h
      rw [show SL "let " ++ u = 'l' :: (SL "et " ++ u) from rfl] at hu
      injection hu with h1 _
      rw [h1]
      decide
    · obtain ⟨u, hu⟩ := (isPre_iff _ _).mp h
      rw [show SL "var " ++ u = 'v' :: (SL "ar " ++ u) from rfl] at hu
      injection hu with h1 _
      rw [h1]
      decide

theorem decl_not_case (m : Str) (h : isDecl m = true) :
    isPre (SL "case") m = false := by
  simp only [isDecl, Bool.or_eq_true] at h
  rcases h with (h | h) | h
  all_goals obtain ⟨u, rfl⟩ := (isPre_iff _ _).mp h
  · rfl
  · rfl
  · rfl

theorem case_not_swClose (l : Str) (hcase : isCaseLine l = true) :
    swClose l = false := by
  have hc1 : isPre (SL "case") (strip l) = true := by
    have h2 := hcase
    simp only [isCaseLine, Bool.and_eq_true] at h2
    exact h2.1
  have hc2 : containsSub (strip l) (SL "case") = true :=
    containsSub_of_isPre _ _ hc1
  have hc3 : containsSub l (SL "case") = true := by
    rwa [containsSub_strip l (SL "case") (by decide) (by decide)] at hc2
  simp [swClose, hc3]

theorem brace_decomp (nx : Str) (hdecl : isDecl (strip nx) = true) :
    ∃ a c, AllWS a ∧ AllWS c ∧
      pyReplace (strip nx) braceLit nx = a ++ braceLit ++ c := by
  obtain ⟨a, c, hnx, ha, hc⟩ := strip_decomp nx
  obtain ⟨h0, t0, hs, hh0⟩ := isDecl_head (strip nx) hdecl
  have key := pyReplace_frame h0 t0 braceLit a c hh0 ha hc
  rw [← hs] at key
  rw [← hnx] at key
  exact ⟨a, c, ha, hc, key⟩

theorem strip_braceLine (nx : Str) (hdecl : isDecl (strip nx) = true) :
    strip (pyReplace (strip nx) braceLit nx) = SL "\x7b" := by
  obtain ⟨a, c, ha, hc, key⟩ := brace_decomp nx hdecl
  rw [key, strip_frame a braceLit c ha hc]
  decide

theorem swOpen_braceLine (nx : Str) (hdecl : isDecl (strip nx) = true) :
    swOpen (pyReplace (strip nx) braceLit nx) = false := by
  obtain ⟨a, c, ha, hc, key⟩ := brace_decomp nx hdecl
  have h1 : containsSub (a ++ braceLit ++ c) (SL "switch") = false := by
    rw [containsSub_frame a braceLit c (SL "switch") ha hc (by decide) (by decide)]
    decide
  rw [key]
  unfold swOpen
  rw [h1, Bool.false_and]

theorem swClose_braceLine (nx : Str) (hdecl : isDecl (strip nx) = true) :
    swClose (pyReplace (strip nx) braceLit nx) = false := by
  obtain ⟨a, c, ha, hc, key⟩ := brace_decomp nx hdecl
  have h1 : containsSub (a ++ braceLit ++ c) (SL "\x7d") = false := by
    rw [containsSub_frame a braceLit c (SL "\x7d") ha hc (by decide) (by decide)]
    decide
  rw [key]
  unfold swClose
  rw [h1, Bool.false_and]

theorem isCaseLine_braceLine (nx : Str) (hdecl : isDecl (strip nx) = true) :
    isCaseLine (pyReplace (strip nx) braceLit nx) = false := by
  have h1 : isPre (SL "case") (SL "\x7b") = false := by decide
  simp [isCaseLine, strip_braceLine nx hdecl, h1]

theorem isDecl_braceLine (nx : Str) (hdecl : isDecl (strip nx) = true) :
    isDecl (strip (pyReplace (strip nx) braceLit nx)) = false := by
  rw [strip_braceLine nx hdecl]
  decide

theorem strip_ind (nx : Str) : strip (sp8 ++ strip nx) = strip nx := by
  rw [strip_ws_left sp8 (strip nx) (by decide)]
  exact strip_idem nx

theorem containsSub_ind (nx p : Str) (hp : NoWS p) (hne : p ≠ []) :
    containsSub (sp8 ++ strip nx) p = containsSub nx p := by
  rw [containsSub_ws_left sp8 (strip nx) p (by decide) hp hne,
    containsSub_strip nx p hp hne]

theorem swOpen_ind (nx : Str) : swOpen (sp8 ++ strip nx) = swOpen nx := by
  unfold swOpen
  rw [containsSub_ind nx (SL "switch") (by decide) (by decide),
    containsSub_ind nx (SL "\x7b") (by decide) (by decide)]

theorem swClose_ind (nx : Str) : swClose (sp8 ++ strip nx) = swClose nx := by
  unfold swClose
  rw [containsSub_ind nx (SL "\x7d") (by decide) (by decide),
    containsSub_ind nx (SL "case") (by decide) (by decide)]

theorem isCaseLine_ind (nx : Str) (hdecl : isDecl (strip nx) = true) :
    isCaseLine (sp8 ++ strip nx) = false := by
  have h1 : isPre (SL "case") (strip (sp8 ++ strip nx)) = false := by
    rw [strip_ind nx]
    exact decl_not_case (strip nx) hdecl
  simp [isCaseLine, h1]

theorem caseFix_decl_cons (nx : Str) (rest : List Str)
    (hdecl : isDecl (strip nx) = true) :
    caseFix true (nx :: rest) =
      nx :: caseFix (if swOpen nx then true else if swClose nx then false else true)
        rest := by
  have hnc : isCaseLine nx = false := by
    have h1 := decl_not_case (strip nx) hdecl
    simp [isCaseLine, h1]
  cases rest with
  | nil => rfl
  | cons m r =>
    by_cases h1 : swOpen nx = true
    · simp [caseFix, h1]
    · by_cases h2 : swClose nx = true
      · simp [caseFix, h1, h2]
      · simp [caseFix, h1, h2, hnc]

theorem caseFix_decl_fixpoint (nx : Str) (t : List Str)
    (hdecl : isDecl (strip nx) = true) :
    caseFix (if swOpen nx then true else if swClose nx then false else true)
        (nx :: t) =
      nx :: caseFix (if swOpen nx then true else if swClose nx then false else true)
        t := by
  have hnc : isCaseLine nx = false := by
    have h1 := decl_not_case (strip nx) hdecl
    simp [isCaseLine, h1]
  cases t with
  | nil => rfl
  | cons m r =>
    by_cases h1 : swOpen nx = true
    · simp [caseFix, h1]
    · by_cases h2 : swClose nx = true
      · simp [caseFix, h1, h2]
      · simp [caseFix, h1, h2, hnc]

theorem caseFix_head (insw : Bool) (l : Str) (rest : List Str) :
    ∃ ys, caseFix insw (l :: rest) = l :: ys := by
  cases rest with
  | nil => exact ⟨[], rfl⟩
  | cons nx r2 =>
    by_cases h1 : swOpen l = true
    · exact ⟨caseFix true (nx :: r2), by simp [caseFix, h1]⟩
    · by_cases h2 : (insw && swClose l) = true
      · exact ⟨caseFix false (nx :: r2), by simp [caseFix, h1, h2]⟩
      · by_cases h3 : (insw && isCaseLine l && isDecl (strip nx)) = true
        · exact ⟨pyReplace (strip nx) braceLit nx :: (sp8 ++ strip nx) ::
            caseFix insw (nx :: r2), by simp [caseFix, h1, h2, h3]⟩
        · exact ⟨caseFix insw (nx :: r2), by simp [caseFix, h1, h2, h3]⟩

theorem caseFix_idem : ∀ (xs : List Str) (insw : Bool),
    caseFix insw (caseFix insw xs) = caseFix insw xs
  | [], _ => rfl
  | [_], _ => rfl
  | l :: nx :: rest, insw => by
    by_cases h1 : swOpen l = true
    · have e1 : caseFix insw (l :: nx :: rest) = l :: caseFix true (nx :: rest) := by
        simp [caseFix, h1]
      rw [e1]
      obtain ⟨ys, hys⟩ := caseFix_head true nx rest
      rw [hys]
      have e2 : caseFix insw (l :: nx :: ys) = l :: caseFix true (nx :: ys) := by
        simp [caseFix, h1]
      rw [e2, ← hys, caseFix_idem (nx :: rest) true]
    · by_cases h2 : (insw && swClose l) = true
      · have e1 : caseFix insw (l :: nx :: rest) = l :: caseFix false (nx :: rest) := by
          simp [caseFix, h1, h2]
        rw [e1]
        obtain ⟨ys, hys⟩ := caseFix_head false nx rest
        rw [hys]
        have e2 : caseFix insw (l :: nx :: ys) = l :: caseFix false (nx :: ys) := by
          simp [caseFix, h1, h2]
        rw [e2, ← hys, caseFix_idem (nx :: rest) false]
      · by_cases h3 : (insw && isCaseLine l && isDecl (strip nx)) = true
        · simp only [Bool.and_eq_true] at h3
          obtain ⟨⟨hinsw, hcase⟩, hdecl⟩ := h3
          subst hinsw
          have hcl : swClose l = false := case_not_swClose l hcase
          have e1 : caseFix true (l :: nx :: rest) =
              l :: pyReplace (strip nx) braceLit nx :: (sp8 ++ strip nx) ::
                caseFix true (nx :: rest) := by
            simp [caseFix, h1, hcl, hcase, hdecl]
          rw [e1, caseFix_decl_cons nx rest hdecl]
          have hfB : isDecl (strip (pyReplace (strip nx) braceLit nx)) = false :=
            isDecl_braceLine nx hdecl
          have eL : caseFix true (l :: pyReplace (strip nx) braceLit nx ::
              (sp8 ++ strip nx) :: nx ::
              caseFix (if swOpen nx then true else if swClose nx then false else true)
                rest) =
              l :: caseFix true (pyReplace (strip nx) braceLit nx ::
                (sp8 ++ strip nx) :: nx ::
                caseFix (if swOpen nx then true else if swClose nx then false else true)
                  rest) := by
            simp [caseFix, h1, hcl, hfB]
          have eB : caseFix true (pyReplace (strip nx) braceLit nx ::
              (sp8 ++ strip nx) :: nx ::
              caseFix (if swOpen nx then true else if swClose nx then false else true)
                rest) =
              pyReplace (strip nx) braceLit nx ::
                caseFix true ((sp8 ++ strip nx) :: nx ::
                  caseFix (if swOpen nx then true else if swClose nx then false else true)
                    rest) := by
            simp [caseFix, swOpen_braceLine nx hdecl, swClose_braceLine nx hdecl,
              isCaseLine_braceLine nx hdecl]
          have eI : caseFix true ((sp8 ++ strip nx) :: nx ::
              caseFix (if swOpen nx then true else if swClose nx then false else true)
                rest) =
              (sp8 ++ strip nx) ::
                caseFix (if swOpen nx then true else if swClose nx then false else true)
                  (nx ::
                    caseFix (if swOpen nx then true else if swClose nx then false else true)
                      rest) := by
            by_cases ha : swOpen nx = true
            · simp [caseFix, swOpen_ind nx, ha]
            · by_cases hb : swClose nx = true
              · simp [caseFix, swOpen_ind nx, swClose_ind nx, ha, hb]
              · simp [caseFix, swOpen_ind nx, swClose_ind nx,
                  isCaseLine_ind nx hdecl, ha, hb]
          rw [eL, eB, eI, caseFix_decl_fixpoint nx _ hdecl, caseFix_idem rest _]
        · have e1 : caseFix insw (l :: nx :: rest) = l :: caseFix insw (nx :: rest) := by
            simp [caseFix, h1, h2, h3]
          rw [e1]
          obtain ⟨ys, hys⟩ := caseFix_head insw nx rest
          rw [hys]
          have e2 : caseFix insw (l :: nx :: ys) = l :: caseFix insw (nx :: ys) := by
            simp [caseFix, h1, h2, h3]
          rw [e2, ← hys, caseFix_idem (nx :: rest) insw]
termination_by xs _ => xs.length
decreasing_by
  · simp only [List.length_cons]
    omega
  · simp only [List.length_cons]
    omega
  · simp only [List.length_cons]
    omega
  · simp only [List.length_cons]
    omega

theorem splitOnChar_ne_nil (sep : Char) (s : Str) : splitOnChar sep s ≠ [] := by
  cases s with
  | nil => simp [splitOnChar]
  | cons c cs =>
    simp only [splitOnChar]
    by_cases h : (c == sep) = true
    · simp [h]
    · simp only [h, if_false]
      cases splitOnChar sep cs with
      | nil => simp [consHead]
      | cons l ls => simp [consHead]

theorem splitOnChar_no_sep (sep : Char) (s : Str) :
    ∀ l ∈ splitOnChar sep s, sep ∉ l := by
  induction s with
  | nil =>
    intro l hl
    simp only [splitOnChar, List.mem_singleton] at hl
    simp [hl]
  | cons c cs ih =>
    intro l hl
    simp only [splitOnChar] at hl
    by_cases h : (c == sep) = true
    · rw [if_pos h] at hl
      rcases List.mem_cons.mp hl with rfl | hmem
      · simp
      · exact ih l hmem
    · rw [if_neg h] at hl
      have hcs : c ≠ sep := by
        intro he
        exact h (by simp [he])
      cases hsp : splitOnChar sep cs with
      | nil => exact absurd hsp (splitOnChar_ne_nil sep cs)
      | cons l0 ls =>
        rw [hsp] at hl
        simp only [consHead] at hl
        rcases List.mem_cons.mp hl with rfl | hmem
        · intro hin
          rcases List.mem_cons.mp hin with he | hin0
          · exact hcs he.symm
          · exact ih l0 (by rw [hsp]; simp) hin0
        · exact ih l (by rw [hsp]; simp [hmem])

theorem splitOnChar_of_no_sep (sep : Char) (l : Str) (h : sep ∉ l) :
    splitOnChar sep l = [l] := by
  induction l with
  | nil => rfl
  | cons c cs ih =>
    have hc : (c == sep) = false := by
      cases hb : c == sep
      · rfl
      · exact absurd (eq_of_beq hb) (fun he => h (by simp [he]))
    simp only [splitOnChar, hc, if_false]
    rw [ih (fun hin => h (List.mem_cons_of_mem c hin))]
    rfl

theorem splitOnChar_append_sep (sep : Char) (l r : Str) (h : sep ∉ l) :
    splitOnChar sep (l ++ sep :: r) = l :: splitOnChar sep r := by
  induction l with
  | nil => simp [splitOnChar]
  | cons c cs ih =>
    have hc : (c == sep) = false := by
      cases hb : c == sep
      · rfl
      · exact absurd (eq_of_beq hb) (fun he => h (by simp [he]))
    simp only [List.cons_append, splitOnChar, hc, List.append_eq,
      Bool.false_eq_true, if_false]
    rw [ih (fun hin => h (List.mem_cons_of_mem c hin))]
    rfl

theorem splitOnChar_joinChar (sep : Char) (ls : List Str)
    (h : ∀ l ∈ ls, sep ∉ l) (hne : ls ≠ []) :
    splitOnChar sep (joinChar sep ls) = ls := by
  induction ls with
  | nil => exact absurd rfl hne
  | cons l ls2 ih =>
    cases ls2 with
    | nil =>
      show splitOnChar sep l = [l]
      exact splitOnChar_of_no_sep sep l (h l (by simp))
    | cons l2 ls3 =>
      show splitOnChar sep (l ++ sep :: joinChar sep (l2 :: ls3)) = l :: l2 :: ls3
      rw [splitOnChar_append_sep sep l _ (h l (by simp)),
        ih (fun x hx => h x (List.mem_cons_of_mem l hx)) (by simp)]

theorem pyReplace_mem : ∀ (pat repl s : Str) (x : Char),
    x ∈ pyReplace pat repl s → x ∈ s ∨ x ∈ repl
  | [], _, s, x => fun h => Or.inl h
  | _ :: _, _, [], x => by
    rw [pyReplace_nil]
    intro h
    cases h
  | p :: ps, repl, c :: cs, x => by
    rw [pyReplace_cons]
    by_cases h : isPre (p :: ps) (c :: cs) = true
    · rw [if_pos h]
      intro hx
      rcases List.mem_append.mp hx with hr | hrec
      · exact Or.inr hr
      · rcases pyReplace_mem (p :: ps) repl
          (List.drop (p :: ps).length (c :: cs)) x hrec with hs | hr
        · exact Or.inl (List.drop_subset _ _ hs)
        · exact Or.inr hr
    · rw [if_neg h]
      intro hx
      rcases List.mem_cons.mp hx with rfl | hrec
      · exact Or.inl (by simp)
      · rcases pyReplace_mem (p :: ps) repl cs x hrec with hs | hr
        · exact Or.inl (List.mem_cons_of_mem c hs)
        · exact Or.inr hr
termination_by _ _ s _ => s.length
decreasing_by
  · simp only [List.length_drop, List.length_cons]
    omega
  · simp only [List.length_cons]
    omega

theorem mem_of_mem_strip (s : Str) (x : Char) (h : x ∈ strip s) : x ∈ s := by
  obtain ⟨a, c, hdec, _, _⟩ := strip_decomp s
  rw [hdec]
  simp [h]

theorem caseFix_mem : ∀ (insw : Bool) (ls : List Str) (x : Str),
    x ∈ caseFix insw ls →
      x ∈ ls ∨ (∃ nx ∈ ls, x = pyReplace (strip nx) braceLit nx) ∨
        (∃ nx ∈ ls, x = sp8 ++ strip nx)
  | _, [], x => fun h => Or.inl h
  | _, [_], x => fun h => Or.inl h
  | insw, l :: nx :: rest, x => by
    intro hx
    have lift :
        x ∈ (nx :: rest) ∨ (∃ m ∈ nx :: rest, x = pyReplace (strip m) braceLit m) ∨
          (∃ m ∈ nx :: rest, x = sp8 ++ strip m) →
        x ∈ (l :: nx :: rest) ∨
          (∃ m ∈ l :: nx :: rest, x = pyReplace (strip m) braceLit m) ∨
          (∃ m ∈ l :: nx :: rest, x = sp8 ++ strip m) := by
      rintro (hm | ⟨m, hm, rfl⟩ | ⟨m, hm, rfl⟩)
      · exact Or.inl (List.mem_cons_of_mem l hm)
      · exact Or.inr (Or.inl ⟨m, List.mem_cons_of_mem l hm, rfl⟩)
      · exact Or.inr (Or.inr ⟨m, List.mem_cons_of_mem l hm, rfl⟩)
    by_cases h1 : swOpen l = true
    · rw [show caseFix insw (l :: nx :: rest) = l :: caseFix true (nx :: rest) from by
        simp [caseFix, h1]] at hx
      rcases List.mem_cons.mp hx with rfl | hrec
      · exact Or.inl (by simp)
      · exact lift (caseFix_mem true (nx :: rest) x hrec)
    · by_cases h2 : (insw && swClose l) = true
      · rw [show caseFix insw (l :: nx :: rest) = l :: caseFix false (nx :: rest) from by
          simp [caseFix, h1, h2]] at hx
        rcases List.mem_cons.mp hx with rfl | hrec
        · exact Or.inl (by simp)
        · exact lift (caseFix_mem false (nx :: rest) x hrec)
      · by_cases h3 : (insw && isCaseLine l && isDecl (strip nx)) = true
        · rw [show caseFix insw (l :: nx :: rest) =
              l :: pyReplace (strip nx) braceLit nx :: (sp8 ++ strip nx) ::
                caseFix insw (nx :: rest) from by
            simp [caseFix, h1, h2, h3]] at hx
          rcases List.mem_cons.mp hx with rfl | hx2
          · exact Or.inl (by simp)
          · rcases List.mem_cons.mp hx2 with rfl | hx3
            · exact Or.inr (Or.inl ⟨nx, by simp, rfl⟩)
            · rcases List.mem_cons.mp hx3 with rfl | hrec
              · exact Or.inr (Or.inr ⟨nx, by simp, rfl⟩)
              · exact lift (caseFix_mem insw (nx :: rest) x hrec)
        · rw [show caseFix insw (l :: nx :: rest) = l :: caseFix insw (nx :: rest) from by
            simp [caseFix, h1, h2, h3]] at hx
          rcases List.mem_cons.mp hx with rfl | hrec
          · exact Or.inl (by simp)
          · exact lift (caseFix_mem insw (nx :: rest) x hrec)
termination_by _ ls _ => ls.length
decreasing_by
  · simp only [List.length_cons]
    omega
  · simp only [List.length_cons]
    omega
  · simp only [List.length_cons]
    omega
  · simp only [List.length_cons]
    omega

theorem caseFix_no_sep (insw : Bool) (ls : List Str)
    (h : ∀ l ∈ ls, '\n' ∉ l) : ∀ x ∈ caseFix insw ls, '\n' ∉ x := by
  intro x hx
  rcases caseFix_mem insw ls x hx with hm | ⟨nx, hnx, rfl⟩ | ⟨nx, hnx, rfl⟩
  · exact h x hm
  · intro hc
    rcases pyReplace_mem (strip nx) braceLit nx '\n' hc with hc1 | hc2
    · exact h nx hnx hc1
    · exact absurd hc2 (by decide)
  · intro hc
    rcases List.mem_append.mp hc with hc1 | hc2
    · exact absurd hc1 (by decide)
    · exact h nx hnx (mem_of_mem_strip nx '\n' hc2)

/-- C1 amended: the pipeline as a whole is not idempotent (the structural
`\x7d else \x7b` repair can fire again on its own output, see the
counterexample), but the switch-case declaration wrapping pass is:
applying the whole-text wrapping transformation twice yields the same text
as applying it once, for every input text. -/
theorem case_wrap_idempotent (s : Str) :
    caseFixContent (caseFixContent s) = caseFixContent s := by
  unfold caseFixContent
  have hout : ∀ x ∈ caseFix false (splitOnChar '\n' s), '\n' ∉ x :=
    caseFix_no_sep false _ (splitOnChar_no_sep '\n' s)
  have hne : caseFix false (splitOnChar '\n' s) ≠ [] := by
    cases hsp : splitOnChar '\n' s with
    | nil => exact absurd hsp (splitOnChar_ne_nil '\n' s)
    | cons l rest =>
      obtain ⟨ys, hys⟩ := caseFix_head false l rest
      rw [hys]
      simp
  rw [splitOnChar_joinChar '\n' _ hout hne, caseFix_idem]

/-- C10: for a `case ...:` line inside a switch whose next line starts
with a declaration keyword, the loop inserts the indentation-preserving
`\x7b` line (the next line with its stripped text replaced by
`'        \x7b'`, which strips to exactly `\x7b`) and a re-indented copy of
the declaration, then continues without consuming the original
declaration line, which is emitted again — and no matching closing
`\x7d` line is inserted (the equation shows exactly the two inserted
lines). -/
theorem case_wrap_duplicates_declaration (l nx : Str) (rest : List Str)
    (hsw : swOpen l = false) (hcase : isCaseLine l = true)
    (hdecl : isDecl (strip nx) = true) :
    caseFix true (l :: nx :: rest) =
      l :: pyReplace (strip nx) braceLit nx :: (sp8 ++ strip nx) :: nx ::
        caseFix (if swOpen nx then true else if swClose nx then false else true)
          rest ∧
      strip (pyReplace (strip nx) braceLit nx) = SL "\x7b" := by
  have hclose : swClose l = false := case_not_swClose l hcase
  refine ⟨?_, strip_braceLine nx hdecl⟩
  have e1 : caseFix true (l :: nx :: rest) =
      l :: pyReplace (strip nx) braceLit nx :: (sp8 ++ strip nx) ::
        caseFix true (nx :: rest) := by
    simp [caseFix, hsw, hclose, hcase, hdecl]
  rw [e1, caseFix_decl_cons nx rest hdecl]

/-- Witness for C10 on the concrete lines `  case 1:` and
`    const x = 1;`. -/
theorem case_wrap_duplicates_declaration_witness :
    (swOpen (SL "  case 1:") = false ∧ isCaseLine (SL "  case 1:") = true ∧
      isDecl (strip (SL "    const x = 1;")) = true) ∧
      (caseFix true [SL "  case 1:", SL "    const x = 1;"] =
          SL "  case 1:" ::
            pyReplace (strip (SL "    const x = 1;")) braceLit
              (SL "    const x = 1;") ::
            (sp8 ++ strip (SL "    const x = 1;")) :: SL "    const x = 1;" ::
            caseFix
              (if swOpen (SL "    const x = 1;") then true
               else if swClose (SL "    const x = 1;") then false else true) [] ∧
        strip (pyReplace (strip (SL "    const x = 1;")) braceLit
          (SL "    const x = 1;")) = SL "\x7b") :=
  ⟨⟨by decide, by decide, by decide⟩,
    case_wrap_duplicates_declaration (SL "  case 1:") (SL "    const x = 1;") []
      (by decide) (by decide) (by decide)⟩
